import Mathlib

/-!
Verification development for the unicache repository: a content-addressed,
block-deduplicated file cache.  The repository's Python layer
(`src/unicache/api.py`, `src/unicache/cli.py`) wraps a low-level engine
(`unicache.unicache_rs.Cache`) that is distributed separately; the engine's
operations (`store_file`, `retrieve_file`, `remove_file`, `get_stats`) are
modelled here from the specification, while the wrapper operations
(`UniCache.add`, `UniCache.copy_to`, `UniCache.remove`, `UniCache.exists`,
`UniCache.list_files`, `UniCache.stats`, `UniCache._file_exists`) are
translated directly from `api.py`.

Bytes are modelled as natural numbers.  A block's content hash is modelled
as the block's byte sequence itself: the specification assumes a
cryptographically strong (collision-free) digest, so the digest is an
injective function of the bytes and the bytes can serve as their own
address.  A `BlockEntry` records the length and reference count the Index
keeps for a block; the block's on-disk bytes are recoverable from its hash
under the content-addressing model.
-/

/-- A byte of file content, modelled as a natural number. -/
abbrev Byte := Nat

/-- A content hash, modelled as the hashed byte sequence itself
(collision-free digest model). -/
abbrev Hash := List Byte

/-- Index record for one block: its length in bytes and its reference
count across all manifests (spec section 3, BlockEntry). -/
structure BlockEntry where
  length : Nat
  refcount : Nat
deriving DecidableEq, Repr

/-- Manifest for one stored file: the ordered list of block hashes and the
total logical length in bytes (spec section 3, Manifest). -/
structure Manifest where
  blockHashes : List Hash
  totalLength : Nat
deriving DecidableEq, Repr

/-- The persistent state of one cache: the configured block size, the
hash-to-BlockEntry map and the FileId-to-Manifest map, both kept as
association lists in insertion order. -/
structure CacheState where
  blockSize : Nat
  blocks : List (Hash × BlockEntry)
  manifests : List (String × Manifest)
deriving DecidableEq, Repr

/-- Errors reported by the low-level engine (spec section 7 taxonomy). -/
inductive CacheErr where
  | notFound
  | ioErr
  | integrity
deriving DecidableEq, Repr

/-- Errors raised by the high-level Python wrapper (`api.py`):
`FileNotFoundError` and the catch-all `UniCacheError`. -/
inductive UniErr where
  | fileNotFound
  | uniCacheErr
deriving DecidableEq, Repr

/-- The user-visible filesystem, mapping a path to the contents of the
file stored there, if any. -/
def Fs := String → Option (List Byte)

/-- Update the filesystem with a file at `p` holding bytes `b`. -/
def fsSet (fs : Fs) (p : String) (b : List Byte) : Fs :=
  fun q => if q = p then some b else fs q

/-- Filesystem side effects performed by `UniCache._file_exists` while it
probes for a file: creating the `NamedTemporaryFile`, reading block data
during the retrieval attempt, and deleting the temporary file on exit. -/
inductive FsEvent where
  | createTemp
  | readBlock (h : Hash)
  | deleteTemp
deriving DecidableEq, Repr

/-- Association-list lookup by key. -/
def alookup {α β : Type} [DecidableEq α] : List (α × β) → α → Option β
  | [], _ => none
  | (k, v) :: rest, a => if k = a then some v else alookup rest a

/-- Association-list update: replace the value at the first occurrence of
the key, or append a new binding when the key is absent. -/
def aset {α β : Type} [DecidableEq α] : List (α × β) → α → β → List (α × β)
  | [], a, b => [(a, b)]
  | (k, v) :: rest, a, b => if k = a then (a, b) :: rest else (k, v) :: aset rest a b

/-- Association-list removal of the first binding for the key. -/
def aerase {α β : Type} [DecidableEq α] : List (α × β) → α → List (α × β)
  | [], _ => []
  | (k, v) :: rest, a => if k = a then rest else (k, v) :: aerase rest a

/-- Modelled from the spec (section 4.1 Chunker, missing from src/ as part
of the `unicache_rs` engine): read up to `bs` bytes, yield the block,
repeat until end of input; the final block may be shorter.  The `fuel`
argument bounds the recursion and is instantiated with the input length. -/
def chunksAux (bs : Nat) : Nat → List Byte → List (List Byte)
  | _, [] => []
  | 0, _ :: _ => []
  | fuel + 1, x :: rest =>
      List.take bs (x :: rest) :: chunksAux bs fuel (List.drop bs (x :: rest))

/-- Modelled from the spec (section 4.1 Chunker): split the input into
consecutive blocks of `bs` bytes, the last possibly shorter; a zero-length
input produces zero blocks. -/
def chunks (bs : Nat) (data : List Byte) : List (List Byte) :=
  chunksAux bs data.length data

/-- Modelled from the spec (section 4.4 store step 1-2 and section 4.3):
on an Index hit increment the block's refcount, on a miss write the block
and insert an entry with refcount 1. -/
def increfBlock (bm : List (Hash × BlockEntry)) (h : Hash) : List (Hash × BlockEntry) :=
  match alookup bm h with
  | some e => aset bm h ⟨e.length, e.refcount + 1⟩
  | none => bm ++ [(h, ⟨h.length, 1⟩)]

/-- Modelled from the spec (section 4.3 `decref`): decrement the block's
refcount; a decrement from refcount 1 removes the Index entry and deletes
the block file; a missing entry is tolerated. -/
def decrefBlock (bm : List (Hash × BlockEntry)) (h : Hash) : List (Hash × BlockEntry) :=
  match alookup bm h with
  | some e => if e.refcount ≤ 1 then aerase bm h else aset bm h ⟨e.length, e.refcount - 1⟩
  | none => bm

/-- Modelled from the spec (section 4.4 `store_file`, missing from src/ as
part of the `unicache_rs` engine): chunk the input, increment or insert
each block, then `put_manifest`, which releases the references of any
prior manifest under the same FileId after the increments (net-delta
order, spec section 4.3 tie-break) and records the new manifest. -/
def store_file (s : CacheState) (fid : String) (data : List Byte) : CacheState :=
  let hs := chunks s.blockSize data
  let bm1 := hs.foldl increfBlock s.blocks
  let bm2 := match alookup s.manifests fid with
    | some old => old.blockHashes.foldl decrefBlock bm1
    | none => bm1
  { s with blocks := bm2, manifests := aset s.manifests fid ⟨hs, data.length⟩ }

/-- Modelled from the spec (section 4.2 `read` driven by section 4.4
retrieve): read each listed block from the Block Store in manifest order
and concatenate; a missing block fails the whole retrieval. -/
def readBlocks (bm : List (Hash × BlockEntry)) : List Hash → Option (List Byte)
  | [] => some []
  | h :: t =>
      match alookup bm h with
      | none => none
      | some _ =>
          match readBlocks bm t with
          | none => none
          | some rest => some (h ++ rest)

/-- Modelled from the spec (section 4.4 `retrieve_file`, missing from src/
as part of the `unicache_rs` engine): look up the manifest (`NotFound` if
absent), read every block in order, and concatenate the bytes. -/
def retrieveBytes (s : CacheState) (fid : String) : Except CacheErr (List Byte) :=
  match alookup s.manifests fid with
  | none => Except.error CacheErr.notFound
  | some m =>
      match readBlocks s.blocks m.blockHashes with
      | none => Except.error CacheErr.integrity
      | some b => Except.ok b

/-- Modelled from the spec (section 4.4 `retrieve_file`): the destination
is written to a temporary file and renamed, so on success the destination
holds the full contents and on failure the filesystem is unchanged. -/
def retrieve_file (s : CacheState) (fs : Fs) (fid dest : String) :
    Except CacheErr Unit × Fs :=
  match retrieveBytes s fid with
  | Except.ok b => (Except.ok (), fsSet fs dest b)
  | Except.error e => (Except.error e, fs)

/-- Modelled from the spec (section 4.4 `remove_file`, missing from src/
as part of the `unicache_rs` engine): delete the manifest (`NotFound` if
absent) and decrement the refcount of each hash it listed, deleting blocks
whose refcount reaches zero. -/
def remove_file (s : CacheState) (fid : String) : Except CacheErr CacheState :=
  match alookup s.manifests fid with
  | none => Except.error CacheErr.notFound
  | some m =>
      Except.ok { s with
        manifests := aerase s.manifests fid,
        blocks := m.blockHashes.foldl decrefBlock s.blocks }

/-- Modelled from the spec (invariant I4): physical size is the sum of the
lengths of all Index block entries. -/
def physicalSize (s : CacheState) : Nat :=
  (s.blocks.map (fun q => q.2.length)).sum

/-- Modelled from the spec (invariant I4): logical size is the sum of the
total lengths of all manifests. -/
def logicalSize (s : CacheState) : Nat :=
  (s.manifests.map (fun q => q.2.totalLength)).sum

/-- Modelled from the spec (section 4.4 `get_stats`, missing from src/ as
part of the `unicache_rs` engine): the tuple
(block count, file count, physical bytes, logical bytes). -/
def get_stats (s : CacheState) : Nat × Nat × Nat × Nat :=
  (s.blocks.length, s.manifests.length, physicalSize s, logicalSize s)

/-- A cache freshly created with block size `bs`: no blocks, no manifests. -/
def emptyCache (bs : Nat) : CacheState :=
  { blockSize := bs, blocks := [], manifests := [] }

/-- From `api.py` `UniCache._file_exists`: probe for a file by creating a
`NamedTemporaryFile` and attempting a full retrieval into it, returning
whether the retrieval succeeded together with the filesystem events the
probe performs (temp-file creation, block reads up to the first missing
block, temp-file deletion on context exit). -/
def fileExistsProbe (s : CacheState) (fid : String) : Bool × List FsEvent :=
  match alookup s.manifests fid with
  | none => (false, [FsEvent.createTemp, FsEvent.deleteTemp])
  | some m =>
      (m.blockHashes.all (fun h => (alookup s.blocks h).isSome),
       FsEvent.createTemp ::
         ((m.blockHashes.takeWhile (fun h => (alookup s.blocks h).isSome)).map
            FsEvent.readBlock ++ [FsEvent.deleteTemp]))

/-- From `api.py` `UniCache.exists` / `UniCache._file_exists`: the boolean
result of the retrieval probe. -/
def fileExists (s : CacheState) (fid : String) : Bool :=
  (fileExistsProbe s fid).1

/-- From `api.py` `UniCache.add` (with an explicit `file_id` and
`copy_file=False`): raise `FileNotFoundError` when the source path does
not exist; return the id unchanged when `_file_exists(file_id)` already
holds; otherwise store the file through the engine. -/
def ucAdd (s : CacheState) (fs : Fs) (path fid : String) :
    Except UniErr String × CacheState :=
  match fs path with
  | none => (Except.error UniErr.fileNotFound, s)
  | some data =>
      if fileExists s fid then (Except.ok fid, s)
      else (Except.ok fid, store_file s fid data)

/-- From `api.py` `UniCache.copy_to`: raise `FileNotFoundError` when the
probe fails; otherwise retrieve directly to the destination, wrapping any
retrieval failure in `UniCacheError`. -/
def ucCopyTo (s : CacheState) (fs : Fs) (fid dest : String) :
    Except UniErr Unit × Fs :=
  if fileExists s fid then
    match retrieve_file s fs fid dest with
    | (Except.ok _, fs2) => (Except.ok (), fs2)
    | (Except.error _, fs2) => (Except.error UniErr.uniCacheErr, fs2)
  else (Except.error UniErr.fileNotFound, fs)

/-- From `api.py` `UniCache.remove`: call the engine's `remove_file` in a
bare try/except, returning `True` on success and `False` on any
exception, with the cache state untouched on failure. -/
def ucRemove (s : CacheState) (fid : String) : Bool × CacheState :=
  match remove_file s fid with
  | Except.ok s2 => (true, s2)
  | Except.error _ => (false, s)

/-- The boolean the wrapper's bare try/except reduces an engine outcome
to: `True` exactly when the engine call raised no exception. -/
def removeOutcome (r : Except CacheErr CacheState) : Bool :=
  match r with
  | Except.ok _ => true
  | Except.error _ => false

/-- The cache state the caller is left with after `UniCache.remove`: the
engine's new state on success, the old state on failure. -/
def resultState (r : Except CacheErr CacheState) (s : CacheState) : CacheState :=
  match r with
  | Except.ok s2 => s2
  | Except.error _ => s

/-- From `api.py` `UniCache.list_files`: the wrapper cannot enumerate
FileIds through the low-level API and returns an empty list. -/
def ucListFiles (_s : CacheState) : List String :=
  []

/-- From `api.py` `UniCache.stats`: the deduplication ratio is
`logical_size / stored_size` when `stored_size > 0` and `1.0` otherwise,
computed here in exact rational arithmetic. -/
def dedup_ratio (s : CacheState) : ℚ :=
  if 0 < physicalSize s then (logicalSize s : ℚ) / (physicalSize s : ℚ) else 1

/-- The statistics dictionary assembled by `api.py` `UniCache.stats`
(numeric fields; the megabyte conversions and directory echo are
omitted as pure reformatting). -/
structure UcStats where
  total_blocks : Nat
  total_files : Nat
  physical_size_bytes : Nat
  logical_size_bytes : Nat
  dedupRatio : ℚ
  space_saved_bytes : ℤ
deriving DecidableEq, Repr

/-- From `api.py` `UniCache.stats`: unpack `get_stats` and derive the
ratio and the space saved (`logical_size - stored_size`). -/
def ucStats (s : CacheState) : UcStats :=
  { total_blocks := (get_stats s).1
    total_files := (get_stats s).2.1
    physical_size_bytes := (get_stats s).2.2.1
    logical_size_bytes := (get_stats s).2.2.2
    dedupRatio := dedup_ratio s
    space_saved_bytes := ((get_stats s).2.2.2 : ℤ) - ((get_stats s).2.2.1 : ℤ) }

/-- Number of occurrences of `x` in the list `l`. -/
def occCount {α : Type} [DecidableEq α] : List α → α → Nat
  | [], _ => 0
  | a :: t, x => (if a = x then 1 else 0) + occCount t x

/-- The multiset (as a list) of all block hashes listed by all manifests,
with multiplicity: one occurrence per (manifest, position) pair. -/
def manifestBag (s : CacheState) : List Hash :=
  (s.manifests.map (fun q => q.2.blockHashes)).flatten

/-- Decidable statement that no two distinct manifests share a block hash
(the spec's phrase "no two manifests share any block"). -/
def noTwoManifestsShareB : List (String × Manifest) → Bool
  | [] => true
  | q :: rest =>
      rest.all (fun r => q.2.blockHashes.all (fun h => decide (h ∉ r.2.blockHashes))) &&
      noTwoManifestsShareB rest

/-- Decidable well-formedness of the index maps used by the statistics
claims: block-map keys are distinct, every manifest's recorded total
length is the sum of its block lengths and every listed hash has an Index
entry, and every Index entry records the block's true length, is
non-empty, and is referenced by at least one manifest position. -/
def statsWFB (s : CacheState) : Bool :=
  decide ((s.blocks.map Prod.fst).Nodup) &&
  s.manifests.all (fun q =>
    decide (q.2.totalLength = (q.2.blockHashes.map List.length).sum) &&
    q.2.blockHashes.all (fun h => (alookup s.blocks h).isSome)) &&
  s.blocks.all (fun q =>
    decide (q.2.length = q.1.length) &&
    decide (0 < q.1.length) &&
    decide (0 < occCount (manifestBag s) q.1))

/-- Decidable statement that every hash listed in any manifest has an
Index entry (the manifest-to-block half of the spec's invariants). -/
def manifestsWFB (s : CacheState) : Bool :=
  s.manifests.all (fun q => q.2.blockHashes.all (fun h => (alookup s.blocks h).isSome))

/-! ### Association-list lemmas -/

theorem alookup_aset_self {α β : Type} [DecidableEq α] (l : List (α × β)) (k : α) (v : β) :
    alookup (aset l k v) k = some v := by
  induction l with
  | nil => simp [aset, alookup]
  | cons q rest ih =>
    obtain ⟨a, b⟩ := q
    by_cases h : a = k
    · simp [aset, h, alookup]
    · simp [aset, h, alookup, ih]

theorem alookup_aset_ne {α β : Type} [DecidableEq α] (l : List (α × β)) (k : α) (v : β)
    (k' : α) (h : k' ≠ k) : alookup (aset l k v) k' = alookup l k' := by
  induction l with
  | nil =>
    simp only [aset, alookup]
    rw [if_neg (fun hh => h hh.symm)]
  | cons q rest ih =>
    obtain ⟨a, b⟩ := q
    by_cases ha : a = k
    · subst ha
      simp only [aset, if_pos rfl, alookup]
      rw [if_neg (fun hh => h hh.symm), if_neg (fun hh => h hh.symm)]
    · simp only [aset, if_neg ha, alookup]
      by_cases ha' : a = k'
      · rw [if_pos ha', if_pos ha']
      · rw [if_neg ha', if_neg ha', ih]

theorem alookup_append_left {α β : Type} [DecidableEq α] (l l' : List (α × β)) (k : α) (v : β)
    (h : alookup l k = some v) : alookup (l ++ l') k = some v := by
  induction l with
  | nil => simp [alookup] at h
  | cons q rest ih =>
    obtain ⟨a, b⟩ := q
    by_cases ha : a = k
    · simp_all [alookup]
    · simp_all [alookup]

theorem alookup_append_of_none {α β : Type} [DecidableEq α] (l : List (α × β)) (k : α) (v : β)
    (h : alookup l k = none) : alookup (l ++ [(k, v)]) k = some v := by
  induction l with
  | nil => simp [alookup]
  | cons q rest ih =>
    obtain ⟨a, b⟩ := q
    by_cases ha : a = k
    · simp [alookup, ha] at h
    · simp_all [alookup]

theorem alookup_isSome_mem {α β : Type} [DecidableEq α] (l : List (α × β)) (k : α)
    (h : (alookup l k).isSome) : k ∈ l.map Prod.fst := by
  induction l with
  | nil => simp [alookup] at h
  | cons q rest ih =>
    obtain ⟨a, b⟩ := q
    by_cases ha : a = k
    · simp [ha]
    · simp [alookup, ha] at h
      simpa using Or.inr (ih h)

theorem alookup_mem {α β : Type} [DecidableEq α] (l : List (α × β)) (k : α) (v : β)
    (h : alookup l k = some v) : (k, v) ∈ l := by
  induction l with
  | nil => simp [alookup] at h
  | cons q rest ih =>
    obtain ⟨a, b⟩ := q
    by_cases ha : a = k
    · subst ha
      simp [alookup] at h
      simp [h]
    · simp [alookup, ha] at h
      exact List.mem_cons_of_mem _ (ih h)

theorem aset_keys_mem {α β : Type} [DecidableEq α] (l : List (α × β)) (k : α) (v : β)
    (a : α) (h : a ∈ (aset l k v).map Prod.fst) : a ∈ l.map Prod.fst ∨ a = k := by
  induction l with
  | nil => simpa [aset] using h
  | cons q rest ih =>
    obtain ⟨a', b'⟩ := q
    by_cases ha' : a' = k
    · subst ha'
      simp only [aset, if_pos rfl, List.map_cons] at h
      rcases List.mem_cons.mp h with rfl | h2
      · exact Or.inr rfl
      · exact Or.inl (List.mem_cons_of_mem _ h2)
    · simp only [aset, if_neg ha', List.map_cons] at h
      rcases List.mem_cons.mp h with rfl | h2
      · exact Or.inl (List.mem_cons_self _ _)
      · rcases ih h2 with h3 | h3
        · exact Or.inl (List.mem_cons_of_mem _ h3)
        · exact Or.inr h3

theorem aset_keys_nodup {α β : Type} [DecidableEq α] (l : List (α × β)) (k : α) (v : β)
    (h : (l.map Prod.fst).Nodup) : ((aset l k v).map Prod.fst).Nodup := by
  induction l with
  | nil => simp [aset]
  | cons q rest ih =>
    obtain ⟨a, b⟩ := q
    simp only [List.map_cons, List.nodup_cons] at h
    by_cases ha : a = k
    · subst ha
      have hset : aset ((a, b) :: rest) a v = (a, v) :: rest := by simp [aset]
      rw [hset, List.map_cons, List.nodup_cons]
      exact ⟨h.1, h.2⟩
    · simp only [aset, if_neg ha, List.map_cons, List.nodup_cons]
      refine ⟨?_, ih h.2⟩
      intro hmem
      rcases aset_keys_mem rest k v a hmem with h3 | h3
      · exact h.1 h3
      · exact ha h3

/-! ### Block-map and chunker lemmas -/

theorem increfBlock_self_isSome (bm : List (Hash × BlockEntry)) (h : Hash) :
    (alookup (increfBlock bm h) h).isSome := by
  unfold increfBlock
  cases hl : alookup bm h with
  | some e => simp [alookup_aset_self]
  | none => simp [alookup_append_of_none bm h _ hl]

theorem increfBlock_preserves (bm : List (Hash × BlockEntry)) (h k : Hash)
    (hk : (alookup bm k).isSome) : (alookup (increfBlock bm h) k).isSome := by
  unfold increfBlock
  cases hl : alookup bm h with
  | some e =>
    by_cases hkh : k = h
    · subst hkh
      simp [alookup_aset_self]
    · rw [alookup_aset_ne bm h _ k hkh]
      exact hk
  | none =>
    obtain ⟨v, hv⟩ := Option.isSome_iff_exists.mp hk
    simp [alookup_append_left bm _ k v hv]

theorem foldl_incref_preserves (hs : List Hash) (bm : List (Hash × BlockEntry)) (k : Hash)
    (hk : (alookup bm k).isSome) : (alookup (hs.foldl increfBlock bm) k).isSome := by
  induction hs generalizing bm with
  | nil => exact hk
  | cons a t ih => exact ih _ (increfBlock_preserves bm a k hk)

theorem foldl_incref_mem : ∀ (hs : List Hash) (bm : List (Hash × BlockEntry)) (h : Hash),
    h ∈ hs → (alookup (hs.foldl increfBlock bm) h).isSome := by
  intro hs
  induction hs with
  | nil => intro bm h hmem; cases hmem
  | cons a t ih =>
    intro bm h hmem
    rcases List.mem_cons.mp hmem with rfl | hmem2
    · exact foldl_incref_preserves t _ h (increfBlock_self_isSome bm h)
    · exact ih _ h hmem2

theorem chunksAux_flatten (bs : Nat) (hbs : 0 < bs) :
    ∀ (fuel : Nat) (data : List Byte), data.length ≤ fuel →
      (chunksAux bs fuel data).flatten = data := by
  intro fuel
  induction fuel with
  | zero =>
    intro data hd
    match data with
    | [] => rfl
    | x :: rest => simp at hd
  | succ n ih =>
    intro data hd
    match data with
    | [] => rfl
    | x :: rest =>
      show (List.take bs (x :: rest) :: chunksAux bs n (List.drop bs (x :: rest))).flatten = _
      rw [List.flatten_cons, ih _ ?_, List.take_append_drop]
      rw [List.length_drop, List.length_cons]
      simp only [List.length_cons] at hd
      omega

theorem chunks_flatten (bs : Nat) (hbs : 0 < bs) (data : List Byte) :
    (chunks bs data).flatten = data :=
  chunksAux_flatten bs hbs data.length data le_rfl

theorem readBlocks_all (bm : List (Hash × BlockEntry)) :
    ∀ (hs : List Hash), (∀ h ∈ hs, (alookup bm h).isSome) →
      readBlocks bm hs = some hs.flatten := by
  intro hs
  induction hs with
  | nil => intro _; rfl
  | cons h t ih =>
    intro hall
    obtain ⟨e, he⟩ := Option.isSome_iff_exists.mp (hall h (List.mem_cons_self _ _))
    have ht := ih (fun x hx => hall x (List.mem_cons_of_mem _ hx))
    simp [readBlocks, he, ht, List.flatten_cons]

/-! ### Probe and store composition lemmas -/

theorem fileExists_none (s : CacheState) (fid : String)
    (hm : alookup s.manifests fid = none) : fileExists s fid = false := by
  simp [fileExists, fileExistsProbe, hm]

theorem fileExists_of_all (s : CacheState) (fid : String) (m : Manifest)
    (hm : alookup s.manifests fid = some m)
    (hall : ∀ h ∈ m.blockHashes, (alookup s.blocks h).isSome) :
    fileExists s fid = true := by
  simp only [fileExists, fileExistsProbe, hm]
  exact List.all_eq_true.mpr (fun h hh => hall h hh)

theorem fileExists_of_wf (s : CacheState) (fid : String) (m : Manifest)
    (hw : manifestsWFB s = true) (hm : alookup s.manifests fid = some m) :
    fileExists s fid = true := by
  refine fileExists_of_all s fid m hm (fun h hh => ?_)
  have hmem := alookup_mem s.manifests fid m hm
  have := List.all_eq_true.mp hw _ hmem
  exact List.all_eq_true.mp this h hh

theorem store_manifests (s : CacheState) (fid : String) (data : List Byte) :
    alookup (store_file s fid data).manifests fid
      = some ⟨chunks s.blockSize data, data.length⟩ := by
  simp only [store_file]
  exact alookup_aset_self s.manifests fid _

theorem store_fresh_blocks (s : CacheState) (fid : String) (data : List Byte)
    (hf : alookup s.manifests fid = none) :
    (store_file s fid data).blocks = (chunks s.blockSize data).foldl increfBlock s.blocks := by
  simp [store_file, hf]

theorem store_fresh_all_present (s : CacheState) (fid : String) (data : List Byte)
    (hf : alookup s.manifests fid = none) :
    ∀ h ∈ chunks s.blockSize data, (alookup (store_file s fid data).blocks h).isSome := by
  intro h hh
  rw [store_fresh_blocks s fid data hf]
  exact foldl_incref_mem _ _ _ hh

theorem fileExists_store_fresh (s : CacheState) (fid : String) (data : List Byte)
    (hf : alookup s.manifests fid = none) :
    fileExists (store_file s fid data) fid = true :=
  fileExists_of_all _ fid _ (store_manifests s fid data)
    (store_fresh_all_present s fid data hf)

theorem retrieveBytes_store_fresh (s : CacheState) (fid : String) (data : List Byte)
    (hbs : 0 < s.blockSize) (hf : alookup s.manifests fid = none) :
    retrieveBytes (store_file s fid data) fid = Except.ok data := by
  have h1 := store_manifests s fid data
  have h2 := readBlocks_all (store_file s fid data).blocks (chunks s.blockSize data)
    (store_fresh_all_present s fid data hf)
  simp only [retrieveBytes, h1, h2, chunks_flatten s.blockSize hbs data]

/-! ### Counting and summation lemmas for the statistics claims -/

theorem sum_map_add_distrib {α : Type} (f g : α → Nat) :
    ∀ (l : List α), (l.map (fun k => f k + g k)).sum = (l.map f).sum + (l.map g).sum := by
  intro l
  induction l with
  | nil => rfl
  | cons a t ih =>
    simp only [List.map_cons, List.sum_cons, ih]
    omega

theorem sum_map_ite_zero {α : Type} [DecidableEq α] (f : α → Nat) (x : α) :
    ∀ (l : List α), x ∉ l → (l.map (fun k => if k = x then f k else 0)).sum = 0 := by
  intro l
  induction l with
  | nil => intro _; rfl
  | cons a t ih =>
    intro hx
    have ha : a ≠ x := fun h => hx (h ▸ List.mem_cons_self a t)
    have ht : x ∉ t := fun h => hx (List.mem_cons_of_mem a h)
    simp only [List.map_cons, List.sum_cons, if_neg ha, ih ht]

theorem sum_map_ite_single {α : Type} [DecidableEq α] (f : α → Nat) (x : α) :
    ∀ (keys : List α), keys.Nodup → x ∈ keys →
      (keys.map (fun k => if k = x then f k else 0)).sum = f x := by
  intro keys
  induction keys with
  | nil => intro _ h; cases h
  | cons a t ih =>
    intro hnd hmem
    simp only [List.nodup_cons] at hnd
    rcases List.mem_cons.mp hmem with rfl | hmem2
    · simp only [List.map_cons, List.sum_cons, if_pos rfl,
        sum_map_ite_zero f x t hnd.1]
      simp
    · have ha : a ≠ x := fun h => hnd.1 (h ▸ hmem2)
      simp only [List.map_cons, List.sum_cons, if_neg ha, ih hnd.2 hmem2]
      omega

theorem occCount_eq_zero {α : Type} [DecidableEq α] (x : α) :
    ∀ (l : List α), x ∉ l → occCount l x = 0 := by
  intro l
  induction l with
  | nil => intro _; rfl
  | cons a t ih =>
    intro hx
    have ha : a ≠ x := fun h => hx (h ▸ List.mem_cons_self a t)
    have ht : x ∉ t := fun h => hx (List.mem_cons_of_mem a h)
    simp [occCount, ha, ih ht]

theorem occCount_pos_of_mem {α : Type} [DecidableEq α] (x : α) :
    ∀ (l : List α), x ∈ l → 0 < occCount l x := by
  intro l
  induction l with
  | nil => intro h; cases h
  | cons a t ih =>
    intro hx
    rcases List.mem_cons.mp hx with rfl | hx2
    · simp [occCount]
    · have := ih hx2
      simp only [occCount]
      omega

theorem mem_of_occCount_pos {α : Type} [DecidableEq α] (x : α) :
    ∀ (l : List α), 0 < occCount l x → x ∈ l := by
  intro l
  induction l with
  | nil => intro h; simp [occCount] at h
  | cons a t ih =>
    intro hx
    by_cases ha : a = x
    · exact ha ▸ List.mem_cons_self a t
    · simp only [occCount, if_neg ha, Nat.zero_add] at hx
      exact List.mem_cons_of_mem a (ih hx)

theorem nodup_iff_occCount_le_one {α : Type} [DecidableEq α] :
    ∀ (l : List α), l.Nodup ↔ ∀ x, occCount l x ≤ 1 := by
  intro l
  induction l with
  | nil => simp [occCount]
  | cons a t ih =>
    rw [List.nodup_cons]
    constructor
    · intro ⟨hat, hnd⟩ x
      by_cases hax : a = x
      · subst hax
        simp [occCount, occCount_eq_zero a t hat]
      · simp only [occCount, if_neg hax, Nat.zero_add]
        exact (ih.mp hnd) x
    · intro h
      constructor
      · intro hat
        have h1 := occCount_pos_of_mem a t hat
        have h2 := h a
        simp [occCount] at h2
        omega
      · refine ih.mpr (fun x => ?_)
        have h2 := h x
        simp only [occCount] at h2
        omega

theorem sum_count_decomp {α : Type} [DecidableEq α] (f : α → Nat) :
    ∀ (bag keys : List α), keys.Nodup → (∀ x ∈ bag, x ∈ keys) →
      (bag.map f).sum = (keys.map (fun k => occCount bag k * f k)).sum := by
  intro bag
  induction bag with
  | nil =>
    intro keys _ _
    simp [occCount]
  | cons x t ih =>
    intro keys hnd hsub
    have hx : x ∈ keys := hsub x (List.mem_cons_self x t)
    have hsub2 : ∀ y ∈ t, y ∈ keys := fun y hy => hsub y (List.mem_cons_of_mem x hy)
    have hmap : keys.map (fun k => occCount (x :: t) k * f k)
        = keys.map (fun k => occCount t k * f k + (if k = x then f k else 0)) := by
      refine List.map_congr_left (fun k _ => ?_)
      show ((if x = k then 1 else 0) + occCount t k) * f k = _
      by_cases hkx : k = x
      · subst hkx
        simp [Nat.add_mul]
        omega
      · have hxk : ¬ (x = k) := fun h => hkx h.symm
        simp [hkx, hxk]
    simp only [List.map_cons, List.sum_cons, hmap,
      sum_map_add_distrib (fun k => occCount t k * f k) (fun k => if k = x then f k else 0) keys,
      ih keys hnd hsub2, sum_map_ite_single f x keys hnd hx]
    omega

theorem sum_pointwise_le {α : Type} (f g : α → Nat) :
    ∀ (l : List α), (∀ x ∈ l, g x ≤ f x) → (l.map g).sum ≤ (l.map f).sum := by
  intro l
  induction l with
  | nil => intro _; exact le_rfl
  | cons a t ih =>
    intro h
    simp only [List.map_cons, List.sum_cons]
    have h1 := h a (List.mem_cons_self a t)
    have h2 := ih (fun x hx => h x (List.mem_cons_of_mem a hx))
    omega

theorem sum_pointwise_eq_iff {α : Type} (f g : α → Nat) :
    ∀ (l : List α), (∀ x ∈ l, g x ≤ f x) →
      ((l.map f).sum = (l.map g).sum ↔ ∀ x ∈ l, f x = g x) := by
  intro l
  induction l with
  | nil => intro _; simp
  | cons a t ih =>
    intro hle
    have ha := hle a (List.mem_cons_self a t)
    have ht : ∀ x ∈ t, g x ≤ f x := fun x hx => hle x (List.mem_cons_of_mem a hx)
    have hsle := sum_pointwise_le f g t ht
    simp only [List.map_cons, List.sum_cons]
    constructor
    · intro h
      have hfa : f a = g a ∧ (t.map f).sum = (t.map g).sum := by omega
      intro x hx
      rcases List.mem_cons.mp hx with rfl | hx2
      · exact hfa.1
      · exact ((ih ht).mp hfa.2) x hx2
    · intro h
      have hfa := h a (List.mem_cons_self a t)
      have hta := (ih ht).mpr (fun x hx => h x (List.mem_cons_of_mem a hx))
      omega

theorem sum_totalLength_eq (ms : List (String × Manifest))
    (h : ∀ q ∈ ms, q.2.totalLength = (q.2.blockHashes.map List.length).sum) :
    (ms.map (fun q => q.2.totalLength)).sum
      = (((ms.map (fun q => q.2.blockHashes)).flatten).map List.length).sum := by
  induction ms with
  | nil => rfl
  | cons q t ih =>
    simp only [List.map_cons, List.sum_cons, List.flatten_cons, List.map_append,
      List.sum_append]
    rw [h q (List.mem_cons_self q t), ih (fun r hr => h r (List.mem_cons_of_mem q hr))]

theorem statsWFB_spec (s : CacheState) (hw : statsWFB s = true) :
    (s.blocks.map Prod.fst).Nodup ∧
    (∀ q ∈ s.manifests, q.2.totalLength = (q.2.blockHashes.map List.length).sum ∧
        ∀ h ∈ q.2.blockHashes, (alookup s.blocks h).isSome) ∧
    (∀ q ∈ s.blocks, q.2.length = q.1.length ∧ 0 < q.1.length ∧
        0 < occCount (manifestBag s) q.1) := by
  simp only [statsWFB, Bool.and_eq_true, List.all_eq_true, decide_eq_true_eq] at hw
  obtain ⟨⟨h1, h2⟩, h3⟩ := hw
  refine ⟨h1, fun q hq => ?_, fun q hq => ?_⟩
  · obtain ⟨ha, hb⟩ := h2 q hq
    exact ⟨ha, fun h hh => hb h hh⟩
  · obtain ⟨⟨ha, hb⟩, hc⟩ := h3 q hq
    exact ⟨ha, hb, hc⟩

theorem dedup_ratio_one_iff (s : CacheState) (hw : statsWFB s = true) :
    dedup_ratio s = 1 ↔ (manifestBag s).Nodup := by
  obtain ⟨hnd, hman, hblk⟩ := statsWFB_spec s hw
  have hL : logicalSize s = ((manifestBag s).map List.length).sum := by
    unfold logicalSize manifestBag
    exact sum_totalLength_eq s.manifests (fun q hq => (hman q hq).1)
  have hP : physicalSize s = ((s.blocks.map Prod.fst).map List.length).sum := by
    unfold physicalSize
    rw [List.map_map]
    exact congrArg List.sum (List.map_congr_left (fun q hq => (hblk q hq).1))
  have hsub : ∀ x ∈ manifestBag s, x ∈ s.blocks.map Prod.fst := by
    intro x hx
    unfold manifestBag at hx
    rcases List.mem_flatten.mp hx with ⟨l, hl, hxl⟩
    rcases List.mem_map.mp hl with ⟨q, hq, rfl⟩
    exact alookup_isSome_mem s.blocks x ((hman q hq).2 x hxl)
  have hocc : ∀ k ∈ s.blocks.map Prod.fst, 0 < occCount (manifestBag s) k := by
    intro k hk
    rcases List.mem_map.mp hk with ⟨q, hq, rfl⟩
    exact (hblk q hq).2.2
  have hlen : ∀ k ∈ s.blocks.map Prod.fst, 0 < k.length := by
    intro k hk
    rcases List.mem_map.mp hk with ⟨q, hq, rfl⟩
    exact (hblk q hq).2.1
  have hdec := sum_count_decomp List.length (manifestBag s) (s.blocks.map Prod.fst) hnd hsub
  have hle : ∀ k ∈ s.blocks.map Prod.fst,
      List.length k ≤ occCount (manifestBag s) k * List.length k :=
    fun k hk => Nat.le_mul_of_pos_left _ (hocc k hk)
  have hiff1 := sum_pointwise_eq_iff (fun k => occCount (manifestBag s) k * List.length k)
    List.length (s.blocks.map Prod.fst) hle
  have hiff2 : (∀ k ∈ s.blocks.map Prod.fst,
      occCount (manifestBag s) k * List.length k = List.length k)
      ↔ (∀ k ∈ s.blocks.map Prod.fst, occCount (manifestBag s) k = 1) := by
    constructor <;> intro h k hk
    · have h1 := h k hk
      have h2 := hlen k hk
      have h3 : occCount (manifestBag s) k * k.length = 1 * k.length := by
        rw [h1, one_mul]
      exact Nat.eq_of_mul_eq_mul_right h2 h3
    · rw [h k hk, one_mul]
  have hiff3 : (∀ k ∈ s.blocks.map Prod.fst, occCount (manifestBag s) k = 1)
      ↔ (manifestBag s).Nodup := by
    rw [nodup_iff_occCount_le_one]
    constructor
    · intro h a
      by_cases ha : a ∈ manifestBag s
      · exact le_of_eq (h a (hsub a ha))
      · rw [occCount_eq_zero a (manifestBag s) ha]
        exact Nat.zero_le 1
    · intro h k hk
      have h1 := h k
      have h2 := hocc k hk
      omega
  unfold dedup_ratio
  by_cases hp : 0 < physicalSize s
  · rw [if_pos hp, div_eq_one_iff_eq (by exact_mod_cast hp.ne'), Nat.cast_inj]
    rw [hL, hP, hdec]
    exact hiff1.trans (hiff2.trans hiff3)
  · rw [if_neg hp]
    have hp0 : physicalSize s = 0 := Nat.eq_zero_of_not_pos hp
    have hkeys : s.blocks.map Prod.fst = [] := by
      cases hck : s.blocks.map Prod.fst with
      | nil => rfl
      | cons a t =>
        exfalso
        have hma : a ∈ s.blocks.map Prod.fst := by
          rw [hck]
          exact List.mem_cons_self a t
        have h1 : 0 < a.length := hlen a hma
        have h2 : physicalSize s = a.length + (t.map List.length).sum := by
          rw [hP, hck]
          simp
        omega
    have hbag : manifestBag s = [] := by
      rw [List.eq_nil_iff_forall_not_mem]
      intro x hx
      have hxk := hsub x hx
      rw [hkeys] at hxk
      cases hxk
    rw [hbag]
    simp

/-! ### Concrete states used by counterexamples and witnesses -/

/-- A filesystem with no files at all. -/
def emptyFs : Fs := fun _ => none

/-- Filesystem holding two small source files with different contents. -/
def c1fs : Fs :=
  fun p => if p = "src1" then some [7] else if p = "src2" then some [8, 9] else none

/-- Cache obtained by adding the one-byte file at `src1` under id `f`
to an empty cache with block size 1. -/
def c1state : CacheState := (ucAdd (emptyCache 1) c1fs "src1" "f").2

/-- Filesystem holding file A (`pA`, contents `[0]`) and file B
(`pB`, contents `[1]`). -/
def c2fs : Fs :=
  fun p => if p = "pA" then some [0] else if p = "pB" then some [1] else none

/-- Cache obtained by adding file A under id `k` to an empty cache with
block size 1. -/
def c2state : CacheState := (ucAdd (emptyCache 1) c2fs "pA" "k").2

/-- Filesystem holding a two-byte file whose two blocks (at block size 1)
are identical. -/
def c7fs : Fs := fun p => if p = "dup" then some [0, 0] else none

/-- Cache obtained by adding the self-duplicating file under id `k7`:
one physical block, two manifest positions referencing it. -/
def c7state : CacheState := (ucAdd (emptyCache 1) c7fs "dup" "k7").2

/-! ### Claim C1 -/

/-- C1 counterexample: round-trip fidelity fails as universally stated.
With `file_id = "f"` already occupied by contents `[7]`, storing contents
`B = [8, 9]` under `"f"` via `UniCache.add` succeeds (returns the id) but
is a silent no-op, and the file then retrieved via `UniCache.copy_to` to
`out` holds `[7]`, not `B`. -/
theorem c1_counterexample :
    (ucAdd c1state c1fs "src2" "f").1 = Except.ok "f" ∧
    ((ucCopyTo (ucAdd c1state c1fs "src2" "f").2 c1fs "f" "out").2) "out" = some [7] ∧
    ((ucCopyTo (ucAdd c1state c1fs "src2" "f").2 c1fs "f" "out").2) "out" ≠ some [8, 9] := by
  refine ⟨rfl, by decide, by decide⟩

/-- C1 (amended): round-trip fidelity holds for every byte sequence `B`
and every `file_id` that does not already carry a manifest: storing via
`UniCache.add` and retrieving via `UniCache.copy_to` produces a
destination file whose contents are exactly `B` (the occupied-id case is
settled under C2). -/
theorem c1_roundtrip_fresh (s : CacheState) (fs : Fs) (p fid dest : String) (B : List Byte)
    (hbs : 0 < s.blockSize) (hfs : fs p = some B)
    (hm : alookup s.manifests fid = none) :
    (ucAdd s fs p fid).1 = Except.ok fid ∧
    (ucCopyTo (ucAdd s fs p fid).2 fs fid dest).1 = Except.ok () ∧
    ((ucCopyTo (ucAdd s fs p fid).2 fs fid dest).2) dest = some B := by
  have he : fileExists s fid = false := fileExists_none s fid hm
  have hstate : (ucAdd s fs p fid).2 = store_file s fid B := by
    simp [ucAdd, hfs, he]
  have hok : (ucAdd s fs p fid).1 = Except.ok fid := by
    simp [ucAdd, hfs, he]
  have he2 : fileExists (store_file s fid B) fid = true :=
    fileExists_store_fresh s fid B hm
  have hr : retrieveBytes (store_file s fid B) fid = Except.ok B :=
    retrieveBytes_store_fresh s fid B hbs hm
  refine ⟨hok, ?_, ?_⟩ <;> rw [hstate] <;>
    simp [ucCopyTo, he2, retrieve_file, hr, fsSet]

/-- Witness for C1: the amended round trip evaluated on a fresh cache
with block size 2, contents `[8, 9]` and id `g`. -/
theorem c1_roundtrip_fresh_witness :
    (0 < (emptyCache 2).blockSize ∧ c1fs "src2" = some [8, 9] ∧
      alookup (emptyCache 2).manifests "g" = none) ∧
    ((ucAdd (emptyCache 2) c1fs "src2" "g").1 = Except.ok "g" ∧
      (ucCopyTo (ucAdd (emptyCache 2) c1fs "src2" "g").2 c1fs "g" "out").1 = Except.ok () ∧
      ((ucCopyTo (ucAdd (emptyCache 2) c1fs "src2" "g").2 c1fs "g" "out").2) "out"
        = some [8, 9]) :=
  ⟨⟨by decide, by decide, rfl⟩,
   c1_roundtrip_fresh (emptyCache 2) c1fs "src2" "g" "out" [8, 9]
     (by decide) (by decide) rfl⟩

/-! ### Claim C2 -/

/-- C2 counterexample: replacement does not happen.  With id `k` holding
file A = `[0]`, storing file B = `[1]` under the same id via
`UniCache.add` returns `k` but leaves the cache state unchanged, and
retrieval still yields `[0]`, not B. -/
theorem c2_counterexample :
    (ucAdd c2state c2fs "pB" "k").1 = Except.ok "k" ∧
    (ucAdd c2state c2fs "pB" "k").2 = c2state ∧
    retrieveBytes (ucAdd c2state c2fs "pB" "k").2 "k" = Except.ok [0] ∧
    ([0] : List Byte) ≠ [1] := by
  refine ⟨rfl, by decide, rfl, by decide⟩

/-- C2 (amended): `UniCache.add` over an existing (retrievable) `file_id`
is a no-op that returns the id with the cache unchanged, so a subsequent
retrieval still yields the original contents A; manifest keys remain
distinct after any add, so no two manifests ever exist with the same
FileId. -/
theorem c2_add_existing_noop (s : CacheState) (fs : Fs) (p fid : String) (B : List Byte) :
    ((s.manifests.map Prod.fst).Nodup →
      (((ucAdd s fs p fid).2).manifests.map Prod.fst).Nodup) ∧
    (fileExists s fid = true → fs p = some B → ucAdd s fs p fid = (Except.ok fid, s)) := by
  constructor
  · intro hn
    cases hfp : fs p with
    | none => simpa [ucAdd, hfp] using hn
    | some data =>
      cases he : fileExists s fid with
      | true => simpa [ucAdd, hfp, he] using hn
      | false =>
        have hst : (ucAdd s fs p fid).2 = store_file s fid data := by
          simp [ucAdd, hfp, he]
        rw [hst]
        exact aset_keys_nodup s.manifests fid _ hn
  · intro he hfp
    simp [ucAdd, hfp, he]

/-- Witness for C2: the amended statement evaluated at the concrete state
holding file A under id `k`. -/
theorem c2_add_existing_noop_witness :
    (((ucAdd c2state c2fs "pB" "k").2).manifests.map Prod.fst).Nodup ∧
    ucAdd c2state c2fs "pB" "k" = (Except.ok "k", c2state) :=
  ⟨(c2_add_existing_noop c2state c2fs "pB" "k" [1]).1 (by decide),
   (c2_add_existing_noop c2state c2fs "pB" "k" [1]).2 (by decide) (by decide)⟩

/-! ### Claim C3 -/

/-- C3 counterexample: the existence check is not an index-only lookup.
Even on an empty cache, probing an absent id creates (and then deletes) a
temporary file, so the probe's filesystem-event trace is non-empty. -/
theorem c3_counterexample :
    (fileExistsProbe (emptyCache 1) "x").2 = [FsEvent.createTemp, FsEvent.deleteTemp] ∧
    FsEvent.createTemp ∈ (fileExistsProbe (emptyCache 1) "x").2 :=
  ⟨rfl, by decide⟩

/-- C3 (amended): on a well-formed cache `UniCache.exists` does decide
whether a manifest for `file_id` is present (it returns exactly the
manifest-presence bit and leaves the cache state untouched), but it
decides it by a retrieval probe: it always creates a temporary file, and
reads block data when a manifest is present. -/
theorem c3_exists_probe (s : CacheState) (fid : String) (hw : manifestsWFB s = true) :
    ((fileExistsProbe s fid).1 = (alookup s.manifests fid).isSome) ∧
    FsEvent.createTemp ∈ (fileExistsProbe s fid).2 := by
  cases hm : alookup s.manifests fid with
  | none => simp [fileExistsProbe, hm]
  | some m =>
    constructor
    · have hall : ∀ h ∈ m.blockHashes, (alookup s.blocks h).isSome := by
        have hmem := alookup_mem s.manifests fid m hm
        have h1 := List.all_eq_true.mp hw _ hmem
        exact fun h hh => List.all_eq_true.mp h1 h hh
      simp only [fileExistsProbe, hm, Option.isSome_some]
      exact List.all_eq_true.mpr (fun h hh => hall h hh)
    · simp [fileExistsProbe, hm]

/-- Witness for C3: the amended statement evaluated at the concrete
one-file cache and its stored id. -/
theorem c3_exists_probe_witness :
    manifestsWFB c1state = true ∧
    ((fileExistsProbe c1state "f").1 = (alookup c1state.manifests "f").isSome ∧
      FsEvent.createTemp ∈ (fileExistsProbe c1state "f").2) :=
  ⟨by decide, c3_exists_probe c1state "f" (by decide)⟩

/-! ### Claim C4 -/

/-- C4: storing the same file under the same id twice in succession
leaves the cache in exactly the same state as storing it once — on any
well-formed state (every manifest-listed hash has an Index entry), the
second `UniCache.add` call returns the identical result and state, so
the manifest and the physical size are unchanged. -/
theorem c4_idempotent_restore (s : CacheState) (fs : Fs) (p fid : String)
    (hw : manifestsWFB s = true) :
    ucAdd ((ucAdd s fs p fid).2) fs p fid = ucAdd s fs p fid := by
  cases hfp : fs p with
  | none => simp [ucAdd, hfp]
  | some data =>
    cases hm : alookup s.manifests fid with
    | some m =>
      have he := fileExists_of_wf s fid m hw hm
      simp [ucAdd, hfp, he]
    | none =>
      have he : fileExists s fid = false := fileExists_none s fid hm
      have he2 := fileExists_store_fresh s fid data hm
      simp [ucAdd, hfp, he, he2]

/-- Witness for C4: idempotence evaluated on an empty cache and a
concrete one-byte source file. -/
theorem c4_idempotent_restore_witness :
    manifestsWFB (emptyCache 1) = true ∧
    ucAdd ((ucAdd (emptyCache 1) c2fs "pA" "z").2) c2fs "pA" "z"
      = ucAdd (emptyCache 1) c2fs "pA" "z" :=
  ⟨by decide, c4_idempotent_restore (emptyCache 1) c2fs "pA" "z" (by decide)⟩

/-! ### Claim C5 -/

/-- C5: retrieving an absent `file_id` through `UniCache.copy_to` fails
with the wrapper's `FileNotFoundError` and leaves the filesystem exactly
as it was; more generally, whenever `copy_to` reports any error the
destination filesystem is unchanged, so the caller observes either the
complete file or no file. -/
theorem c5_retrieve_absent (s : CacheState) (fs : Fs) (fid dest : String) :
    (alookup s.manifests fid = none →
      ucCopyTo s fs fid dest = (Except.error UniErr.fileNotFound, fs)) ∧
    (∀ e, (ucCopyTo s fs fid dest).1 = Except.error e → (ucCopyTo s fs fid dest).2 = fs) := by
  constructor
  · intro hm
    simp [ucCopyTo, fileExists_none s fid hm]
  · intro e
    cases he : fileExists s fid with
    | false =>
      intro _
      simp [ucCopyTo, he]
    | true =>
      cases hr : retrieveBytes s fid with
      | ok b =>
        intro h1
        exfalso
        simp [ucCopyTo, he, retrieve_file, hr] at h1
      | error er =>
        intro _
        simp [ucCopyTo, he, retrieve_file, hr]

/-- Witness for C5: retrieval of an absent id on an empty cache fails
with `FileNotFoundError` and the (empty) filesystem is unchanged. -/
theorem c5_retrieve_absent_witness :
    ucCopyTo (emptyCache 1) emptyFs "x" "out" = (Except.error UniErr.fileNotFound, emptyFs) ∧
    (ucCopyTo (emptyCache 1) emptyFs "x" "out").2 = emptyFs := by
  have h := c5_retrieve_absent (emptyCache 1) emptyFs "x" "out"
  refine ⟨h.1 rfl, h.2 UniErr.fileNotFound ?_⟩
  rw [h.1 rfl]

/-! ### Claim C6 -/

/-- C6 counterexample: the caller of `UniCache.remove` cannot distinguish
`NotFound` from `IoError`: the wrapper's bare try/except collapses both
engine outcomes to the same observable value `False`. -/
theorem c6_counterexample :
    removeOutcome (Except.error CacheErr.notFound)
      = removeOutcome (Except.error CacheErr.ioErr) ∧
    ucRemove (emptyCache 1) "x" = (false, emptyCache 1) :=
  ⟨rfl, by decide⟩

/-- C6 (amended): removing an absent `file_id` leaves the cache state
unchanged, and the engine's `remove_file` does report `NotFound` — but
`UniCache.remove` swallows it and returns `False`, the same value as for
any I/O failure. -/
theorem c6_remove_absent (s : CacheState) (fid : String)
    (hm : alookup s.manifests fid = none) :
    remove_file s fid = Except.error CacheErr.notFound ∧ ucRemove s fid = (false, s) := by
  have h1 : remove_file s fid = Except.error CacheErr.notFound := by
    simp [remove_file, hm]
  exact ⟨h1, by simp [ucRemove, h1]⟩

/-- Witness for C6: the amended statement evaluated on an empty cache. -/
theorem c6_remove_absent_witness :
    remove_file (emptyCache 2) "y" = Except.error CacheErr.notFound ∧
    ucRemove (emptyCache 2) "y" = (false, emptyCache 2) :=
  c6_remove_absent (emptyCache 2) "y" rfl

/-! ### Claim C7 -/

/-- C7 counterexample: the biconditional "ratio is 1.0 exactly when no
two manifests share a block" fails.  A single stored file of two
identical blocks gives a cache where no two (distinct) manifests share a
block, yet the deduplication ratio is 2, not 1, because one manifest
references the same block twice. -/
theorem c7_counterexample :
    noTwoManifestsShareB c7state.manifests = true ∧
    (ucStats c7state).dedupRatio ≠ 1 := by
  constructor
  · decide
  · have h1 : physicalSize c7state = 1 := by decide
    have h2 : logicalSize c7state = 2 := by decide
    show dedup_ratio c7state ≠ 1
    unfold dedup_ratio
    rw [h1, h2]
    norm_num

/-- C7 (amended): on any well-formed cache state the reported
deduplication ratio equals `logical_size / physical_size` (exact rational
arithmetic) whenever `physical_size > 0`, space saved equals
`logical_size - physical_size`, and the ratio equals 1 exactly when no
block is referenced more than once across all manifest positions
(repetition inside a single manifest also raises the ratio). -/
theorem c7_stats (s : CacheState) (hw : statsWFB s = true) :
    ((ucStats s).dedupRatio = 1 ↔ (manifestBag s).Nodup) ∧
    (ucStats s).space_saved_bytes = (logicalSize s : ℤ) - (physicalSize s : ℤ) ∧
    (0 < physicalSize s →
      (ucStats s).dedupRatio = (logicalSize s : ℚ) / (physicalSize s : ℚ)) := by
  refine ⟨?_, rfl, ?_⟩
  · show dedup_ratio s = 1 ↔ _
    exact dedup_ratio_one_iff s hw
  · intro hp
    show dedup_ratio s = _
    unfold dedup_ratio
    rw [if_pos hp]

/-- Witness for C7: the amended statement evaluated at the concrete
self-duplicating one-file cache (where the ratio is 2 and the bag of
referenced hashes is not duplicate-free, so the equivalence holds with
both sides false). -/
theorem c7_stats_witness :
    statsWFB c7state = true ∧
    (((ucStats c7state).dedupRatio = 1 ↔ (manifestBag c7state).Nodup) ∧
      (ucStats c7state).space_saved_bytes
        = (logicalSize c7state : ℤ) - (physicalSize c7state : ℤ) ∧
      (0 < physicalSize c7state →
        (ucStats c7state).dedupRatio
          = (logicalSize c7state : ℚ) / (physicalSize c7state : ℚ))) :=
  ⟨by decide, c7_stats c7state (by decide)⟩

/-! ### Claim C8 -/

/-- C8: `UniCache.list_files` returns the empty list on every cache
state, including states holding stored files — the wrapper exposes no way
to enumerate the FileIds present in the cache. -/
theorem c8_list_files_empty : ∀ (s : CacheState), ucListFiles s = [] :=
  fun _ => rfl

/-! ### Claim C9 -/

/-- C9: adding a source path that does not exist on the filesystem raises
the wrapper's `FileNotFoundError` before any cache mutation, leaving the
cache state exactly as it was. -/
theorem c9_add_missing_source (s : CacheState) (fs : Fs) (p fid : String)
    (hfs : fs p = none) :
    ucAdd s fs p fid = (Except.error UniErr.fileNotFound, s) := by
  simp [ucAdd, hfs]

/-- Witness for C9: a missing path on a non-empty cache raises
`FileNotFoundError` and changes nothing. -/
theorem c9_add_missing_source_witness :
    emptyFs "nofile" = none ∧
    ucAdd c1state emptyFs "nofile" "f9" = (Except.error UniErr.fileNotFound, c1state) :=
  ⟨rfl, c9_add_missing_source c1state emptyFs "nofile" "f9" rfl⟩

/-! ### Claim C10 -/

/-- C10: `UniCache.remove` is total and boolean: it returns exactly the
success bit of the engine's `remove_file` together with the engine's new
state on success and the unchanged state on failure, and it maps the
`NotFound` and `IoError` outcomes to the same observable value, so the
caller cannot distinguish them. -/
theorem c10_remove_total_boolean (s : CacheState) (fid : String) :
    ucRemove s fid = (removeOutcome (remove_file s fid), resultState (remove_file s fid) s) ∧
    removeOutcome (Except.error CacheErr.notFound)
      = removeOutcome (Except.error CacheErr.ioErr) := by
  constructor
  · unfold ucRemove removeOutcome resultState
    cases remove_file s fid <;> rfl
  · rfl
